import Mathlib

/-
Verification of the classical Deutsch-Jozsa black-box simulator and
classifier.  The Python source is embedded shallowly: machine integers
become Nat/Int, numpy arrays become lists, random draws (the constant
oracle's bit, the balanced oracle's shuffle, the classifier's index
shuffle, the harness's per-trial coin) become explicit parameters
constrained by hypotheses, and operations that can raise (numpy index
errors, the NameError when the classifier's loop body never runs) return
Option.
-/

/-- The oracle object of the source: a tagged record with a type flag
(0 constant, 1 balanced), the input bitstring length, a fixed output bit
for the constant case and an output array for the balanced case.  As in
the source, only one of the two payload fields is meaningful. -/
structure general_black_box where
  type : Nat
  input_bitstring_length : Nat
  output : Nat
  output_array : List Nat
  deriving Repr, DecidableEq

/-- The pre-shuffle output array a balanced oracle is built from:
2^n / 2 zeros followed by 2^n / 2 ones (the source computes
int(2 ** n / 2); for the powers of two involved Nat division agrees). -/
def base_output_array (n : Nat) : List Nat :=
  List.replicate (2 ^ n / 2) 0 ++ List.replicate (2 ^ n / 2) 1

/-- Constructor of general_black_box.  The random draws of the source are
the explicit arguments random_bit (np.random.choice for the constant
case) and shuffled_array (the result of random.shuffle of
base_output_array for the balanced case); theorems constrain them by
hypotheses.  Unused payload fields get the dummy values 0 and []. -/
def general_black_box_mk (black_box_type black_box_bit_string_length : Nat)
    (random_bit : Nat) (shuffled_array : List Nat) : general_black_box :=
  if black_box_type = 0 then
    ⟨black_box_type, black_box_bit_string_length, random_bit, []⟩
  else
    ⟨black_box_type, black_box_bit_string_length, 0, shuffled_array⟩

/-- An oracle as the source actually constructs one: either constant with
a bit drawn from 0 or 1, or balanced with an output array that is a
shuffle of base_output_array. -/
def valid_general_black_box (bb : general_black_box) : Prop :=
  (bb.type = 0 ∧ (bb.output = 0 ∨ bb.output = 1)) ∨
  (bb.type = 1 ∧ bb.output_array.Perm (base_output_array bb.input_bitstring_length))

instance (bb : general_black_box) : Decidable (valid_general_black_box bb) := by
  unfold valid_general_black_box; infer_instance

/-- The query method input_output_operation.  A constant oracle returns
its fixed bit for any index (the source performs no validation); a
balanced oracle indexes its numpy output array, which accepts indices in
[-len, len) (negative indices count from the end) and raises IndexError
(none here) otherwise. -/
def input_output_operation (bb : general_black_box) (bit_string_input : Int) :
    Option Nat :=
  if bb.type = 0 then some bb.output
  else
    let len : Int := bb.output_array.length
    if 0 ≤ bit_string_input ∧ bit_string_input < len then
      bb.output_array.get? bit_string_input.toNat
    else if -len ≤ bit_string_input ∧ bit_string_input < 0 then
      bb.output_array.get? (bit_string_input + len).toNat
    else none

/-- The classifier's for-loop: counter ranges over the remaining
iterations, black_box_output_1 is the running reference output.  On a
mismatch the verdict becomes 1 (balanced) and the count is counter + 2;
if the loop ends without a break the post-loop counter is one less than
the final call's counter, so the count is counter + 1.  A failed list
access or query propagates as none. -/
def classifier_loop (bb : general_black_box) (black_box_input_list : List Nat)
    (black_box_output_1 counter remaining : Nat) : Option (Nat × Nat) :=
  match remaining with
  | 0 => some (0, counter + 1)
  | r + 1 =>
    match black_box_input_list.get? (counter + 1) with
    | none => none
    | some idx =>
      match input_output_operation bb (idx : Int) with
      | none => none
      | some black_box_output_2 =>
        if black_box_output_1 ≠ black_box_output_2 then some (1, counter + 2)
        else classifier_loop bb black_box_input_list black_box_output_2 (counter + 1) r

/-- The classifier black_box_classifier.  The shuffled index list the
source builds internally is the explicit argument black_box_input_list;
theorems hypothesise it is a permutation of range (2^n).  When the loop
body never runs (2^n / 2 = 0, i.e. n = 0) the source raises NameError on
the post-loop counter, modelled as none. -/
def black_box_classifier (black_box : general_black_box)
    (black_box_input_list : List Nat) : Option (Nat × Nat) :=
  let number_of_possible_bitsrtings := 2 ^ black_box.input_bitstring_length
  match black_box_input_list.get? 0 with
  | none => none
  | some i0 =>
    match input_output_operation black_box (i0 : Int) with
    | none => none
    | some black_box_output_1 =>
      if number_of_possible_bitsrtings / 2 = 0 then none
      else
        classifier_loop black_box black_box_input_list black_box_output_1 0
          (number_of_possible_bitsrtings / 2)

/-- The output of the j-th query the classifier makes: the index at
position j of the shuffled input list, passed through the oracle. -/
def queried_output (bb : general_black_box) (perm : List Nat) (j : Nat) :
    Option Nat :=
  match perm.get? j with
  | none => none
  | some idx => input_output_operation bb (idx : Int)

/-- Modelled from the spec: the classifier's loop rewritten so each new
output is compared against the output of the very first query (step 2 of
section 4.2 calls it the reference output and step 3 compares every
subsequent output to it), instead of the source's running reference that
is overwritten every iteration. -/
def classifier_loop_first_reference (bb : general_black_box)
    (black_box_input_list : List Nat)
    (first_output counter remaining : Nat) : Option (Nat × Nat) :=
  match remaining with
  | 0 => some (0, counter + 1)
  | r + 1 =>
    match black_box_input_list.get? (counter + 1) with
    | none => none
    | some idx =>
      match input_output_operation bb (idx : Int) with
      | none => none
      | some black_box_output_2 =>
        if first_output ≠ black_box_output_2 then some (1, counter + 2)
        else
          classifier_loop_first_reference bb black_box_input_list first_output
            (counter + 1) r

/-- Modelled from the spec: the classifier with the fixed-first-reference
comparison of section 4.2, to be compared with the source's
black_box_classifier. -/
def black_box_classifier_first_reference (black_box : general_black_box)
    (black_box_input_list : List Nat) : Option (Nat × Nat) :=
  let number_of_possible_bitsrtings := 2 ^ black_box.input_bitstring_length
  match black_box_input_list.get? 0 with
  | none => none
  | some i0 =>
    match input_output_operation black_box (i0 : Int) with
    | none => none
    | some black_box_output_1 =>
      if number_of_possible_bitsrtings / 2 = 0 then none
      else
        classifier_loop_first_reference black_box black_box_input_list
          black_box_output_1 0 (number_of_possible_bitsrtings / 2)

/-- Instrumented version of classifier_loop that also returns the list of
indices it passed to the oracle, in query order. -/
def classifier_loop_trace (bb : general_black_box)
    (black_box_input_list : List Nat)
    (black_box_output_1 counter remaining : Nat) :
    Option ((Nat × Nat) × List Nat) :=
  match remaining with
  | 0 => some ((0, counter + 1), [])
  | r + 1 =>
    match black_box_input_list.get? (counter + 1) with
    | none => none
    | some idx =>
      match input_output_operation bb (idx : Int) with
      | none => none
      | some black_box_output_2 =>
        if black_box_output_1 ≠ black_box_output_2 then
          some ((1, counter + 2), [idx])
        else
          match classifier_loop_trace bb black_box_input_list
              black_box_output_2 (counter + 1) r with
          | none => none
          | some (res, qs) => some (res, idx :: qs)

/-- Instrumented version of black_box_classifier that also returns every
index passed to the oracle, in query order. -/
def black_box_classifier_trace (black_box : general_black_box)
    (black_box_input_list : List Nat) : Option ((Nat × Nat) × List Nat) :=
  let number_of_possible_bitsrtings := 2 ^ black_box.input_bitstring_length
  match black_box_input_list.get? 0 with
  | none => none
  | some i0 =>
    match input_output_operation black_box (i0 : Int) with
    | none => none
    | some black_box_output_1 =>
      if number_of_possible_bitsrtings / 2 = 0 then none
      else
        match classifier_loop_trace black_box black_box_input_list
            black_box_output_1 0 (number_of_possible_bitsrtings / 2) with
        | none => none
        | some (res, qs) => some (res, i0 :: qs)

/-- The trial loop of test_black_box_classifier: for each trial i a coin
(choices i) selects the pre-built balanced oracle black_box_1 or the
pre-built constant oracle black_box_2 (random.choice of the source), the
chosen oracle is classified with the shuffled index list perms i, and the
query count and verdict are appended to the two result lists. -/
def test_black_box_classifier_loop (black_box_1 black_box_2 : general_black_box)
    (choices : Nat → Bool) (perms : Nat → List Nat) :
    Nat → Nat → Option (List Nat × List Nat)
  | _, 0 => some ([], [])
  | i, r + 1 =>
    let black_box_in_use := if choices i then black_box_1 else black_box_2
    match black_box_classifier black_box_in_use (perms i) with
    | none => none
    | some (black_box_type, number_of_black_box_outputs) =>
      match test_black_box_classifier_loop black_box_1 black_box_2 choices perms
          (i + 1) r with
      | none => none
      | some (number_of_outputs_list, black_box_type_list) =>
        some (number_of_black_box_outputs :: number_of_outputs_list,
          black_box_type :: black_box_type_list)

/-- The trial harness test_black_box_classifier: one balanced and one
constant oracle are constructed before the loop (their random draws are
the arguments balanced_shuffled and constant_bit), then number_of_tests
trials each classify one of the two pre-built instances.  Returns the
list of query counts and the list of verdicts, in trial order. -/
def test_black_box_classifier (length_of_bitstring number_of_tests : Nat)
    (balanced_shuffled : List Nat) (constant_bit : Nat)
    (choices : Nat → Bool) (perms : Nat → List Nat) :
    Option (List Nat × List Nat) :=
  let black_box_1 := general_black_box_mk 1 length_of_bitstring 0 balanced_shuffled
  let black_box_2 := general_black_box_mk 0 length_of_bitstring constant_bit []
  test_black_box_classifier_loop black_box_1 black_box_2 choices perms 0
    number_of_tests

/-- The loop of average_output_number_scaling: for each bit length
i + 1 up to the maximum it runs the trial harness and records the
arithmetic mean (np.mean, modelled exactly in the rationals) of the query
counts.  The per-length random draws are supplied by arrs, bits, choices
and perms. -/
def average_output_number_scaling_loop (number_of_tests : Nat)
    (arrs : Nat → List Nat) (bits : Nat → Nat)
    (choices : Nat → Nat → Bool) (perms : Nat → Nat → List Nat) :
    Nat → Nat → Option (List Rat)
  | _, 0 => some []
  | i, r + 1 =>
    match test_black_box_classifier (i + 1) number_of_tests (arrs (i + 1))
        (bits (i + 1)) (choices (i + 1)) (perms (i + 1)) with
    | none => none
    | some (number_of_outputs_list, _) =>
      match average_output_number_scaling_loop number_of_tests arrs bits choices
          perms (i + 1) r with
      | none => none
      | some average_operations_list =>
        some (((number_of_outputs_list.sum : Rat) /
          (number_of_outputs_list.length : Rat)) :: average_operations_list)

/-- The scaling driver average_output_number_scaling, modelled as the
curve it hands to the plotting collaborator: plt.plot pairs the x-list
of bit lengths 1..max with the list of mean query counts, so the
boundary artifact is that list of (n, mean) points. -/
def average_output_number_scaling (maximum_bitstring_length number_of_tests : Nat)
    (arrs : Nat → List Nat) (bits : Nat → Nat)
    (choices : Nat → Nat → Bool) (perms : Nat → Nat → List Nat) :
    Option (List (Nat × Rat)) :=
  match average_output_number_scaling_loop number_of_tests arrs bits choices
      perms 0 maximum_bitstring_length with
  | none => none
  | some average_operations_list =>
    some ((((List.range maximum_bitstring_length).map (fun i => i + 1))).zip
      average_operations_list)

/-- For n at least one, the source's half domain size 2^n / 2 is
2^(n-1). -/
theorem pow_div_two (n : Nat) (hn : 1 ≤ n) : 2 ^ n / 2 = 2 ^ (n - 1) := by
  obtain ⟨m, rfl⟩ := Nat.exists_eq_add_of_le hn
  simp [Nat.pow_succ, Nat.pow_add]

/-- The two half-arrays together fill the whole domain. -/
theorem half_add_half (n : Nat) (hn : 1 ≤ n) :
    2 ^ n / 2 + 2 ^ n / 2 = 2 ^ n := by
  obtain ⟨m, rfl⟩ := Nat.exists_eq_add_of_le hn
  simp [Nat.pow_add]
  omega

/-- The pre-shuffle balanced array has length 2^n. -/
theorem base_output_array_length (n : Nat) (hn : 1 ≤ n) :
    (base_output_array n).length = 2 ^ n := by
  simp [base_output_array, half_add_half n hn]

/-- Any value occurs at most 2^n / 2 times in the pre-shuffle balanced
array. -/
theorem base_output_array_count_le (n v : Nat) :
    (base_output_array n).count v ≤ 2 ^ n / 2 := by
  simp only [base_output_array, List.count_append, List.count_replicate,
    beq_iff_eq]
  split <;> split <;> first
  | exact Nat.zero_le _
  | omega

/-- A constant oracle's query operation returns its fixed output bit for
every integer index. -/
theorem input_output_operation_constant (bb : general_black_box)
    (ht : bb.type = 0) (i : Int) :
    input_output_operation bb i = some bb.output := by
  simp [input_output_operation, ht]

/-- A balanced oracle's query operation at an in-range natural index is
the array lookup at that index. -/
theorem input_output_operation_balanced (bb : general_black_box)
    (ht : bb.type ≠ 0) (i : Nat) (hi : i < bb.output_array.length) :
    input_output_operation bb (i : Int) = bb.output_array.get? i := by
  simp only [input_output_operation, ht, if_false]
  rw [if_pos]
  · simp
  · constructor
    · exact Int.ofNat_nonneg i
    · exact_mod_cast hi

/-- If every query the loop makes succeeds and returns the running
reference value, the loop never breaks: the verdict is 0 (constant) and
the reported count is the final counter plus one. -/
theorem classifier_loop_no_mismatch (bb : general_black_box) (perm : List Nat)
    (out1 : Nat) : ∀ remaining counter : Nat,
    (∀ j, counter + 1 ≤ j → j ≤ counter + remaining →
      ∃ idx, perm.get? j = some idx ∧
        input_output_operation bb (idx : Int) = some out1) →
    classifier_loop bb perm out1 counter remaining =
      some (0, counter + remaining + 1) := by
  intro remaining
  induction remaining with
  | zero => intro counter _; rfl
  | succ r ih =>
    intro counter H
    obtain ⟨idx, h1, h2⟩ := H (counter + 1) (Nat.le_refl _) (by omega)
    rw [classifier_loop]
    simp only [h1, h2, ne_eq, not_true_eq_false, if_false]
    rw [ih (counter + 1) (fun j hj1 hj2 => H j (by omega) (by omega))]
    congr 2
    omega

/-- If the queries at positions strictly between the current counter and
p all succeed with the running reference value, and the query at position
p succeeds with a different value, the loop breaks exactly at p: the
verdict is 1 (balanced) and the reported count is p + 1. -/
theorem classifier_loop_mismatch (bb : general_black_box) (perm : List Nat) :
    ∀ remaining counter out1 p : Nat,
    counter < p → p ≤ counter + remaining →
    (∀ j, counter < j → j < p →
      ∃ idx, perm.get? j = some idx ∧
        input_output_operation bb (idx : Int) = some out1) →
    (∃ idx, perm.get? p = some idx ∧
      ∃ v, input_output_operation bb (idx : Int) = some v ∧ v ≠ out1) →
    classifier_loop bb perm out1 counter remaining = some (1, p + 1) := by
  intro remaining
  induction remaining with
  | zero => intro counter out1 p hp1 hp2 _ _; omega
  | succ r ih =>
    intro counter out1 p hp1 hp2 Heq Hne
    by_cases hpc : p = counter + 1
    · subst hpc
      obtain ⟨idx, h1, v, h2, hv⟩ := Hne
      rw [classifier_loop]
      simp only [h1, h2]
      rw [if_pos (by exact fun h => hv h.symm)]
    · obtain ⟨idx, h1, h2⟩ := Heq (counter + 1) (by omega) (by omega)
      rw [classifier_loop]
      simp only [h1, h2, ne_eq, not_true_eq_false, if_false]
      exact ih (counter + 1) out1 p (by omega) (by omega)
        (fun j hj1 hj2 => Heq j (by omega) hj2) Hne

/-- The number of positions of a list holding a given value is the count
of that value. -/
theorem card_filter_range_get (arr : List Nat) (v : Nat) :
    ((Finset.range arr.length).filter (fun i => arr.get? i = some v)).card =
      arr.count v := by
  induction arr with
  | nil => simp
  | cons a t ih =>
    rw [Finset.card_filter, List.length_cons, Finset.sum_range_succ']
    simp only [List.get?_cons_succ, List.get?_cons_zero, Option.some.injEq]
    rw [← Finset.card_filter, ih, List.count_cons]
    simp [beq_iff_eq]

/-- Pigeonhole for a balanced oracle: the first 2^(n-1) + 1 entries of a
permutation of the index range cannot all look up the same value in an
array holding each value only 2^(n-1) times. -/
theorem balanced_no_constant_prefix (n : Nat) (hn : 1 ≤ n) (arr : List Nat)
    (harr : arr.Perm (base_output_array n)) (perm : List Nat)
    (hperm : perm.Perm (List.range (2 ^ n))) (v : Nat)
    (h : ∀ j ≤ 2 ^ n / 2, ∃ idx, perm.get? j = some idx ∧
      arr.get? idx = some v) :
    False := by
  have harrlen : arr.length = 2 ^ n := by
    rw [harr.length_eq, base_output_array_length n hn]
  have hpermlen : perm.length = 2 ^ n := by
    rw [hperm.length_eq, List.length_range]
  have hnodup : perm.Nodup := hperm.nodup_iff.mpr (List.nodup_range _)
  have hhalfN : 2 ^ n / 2 + 1 ≤ 2 ^ n := by
    have h1 := half_add_half n hn
    have h2 : 1 ≤ 2 ^ n / 2 := by
      rw [pow_div_two n hn]; exact Nat.one_le_two_pow
    omega
  have htake_len : (perm.take (2 ^ n / 2 + 1)).length = 2 ^ n / 2 + 1 := by
    rw [List.length_take]; omega
  have htake_nodup : (perm.take (2 ^ n / 2 + 1)).Nodup :=
    hnodup.sublist (List.take_sublist _ _)
  have hmem : ∀ x ∈ perm.take (2 ^ n / 2 + 1),
      arr.get? x = some v ∧ x < arr.length := by
    intro x hx
    obtain ⟨j, hget⟩ := List.mem_iff_get.mp hx
    have hj : j.1 < 2 ^ n / 2 + 1 := by
      have := j.2
      omega
    have hx' : perm.get? j.1 = some x := by
      rw [← List.get?_take hj, List.get?_eq_get j.2]
      exact congrArg some hget
    obtain ⟨idx, hidx1, hidx2⟩ := h j.1 (by omega)
    have hix : idx = x := by
      rw [hx'] at hidx1
      exact ((Option.some.injEq _ _).mp hidx1).symm
    subst hix
    refine ⟨hidx2, ?_⟩
    have hxp : idx ∈ perm := List.take_subset _ _ hx
    have hxr : idx ∈ List.range (2 ^ n) := hperm.mem_iff.mp hxp
    rw [harrlen]
    exact List.mem_range.mp hxr
  have hcard : ((perm.take (2 ^ n / 2 + 1)).toFinset).card = 2 ^ n / 2 + 1 := by
    rw [List.toFinset_card_of_nodup htake_nodup, htake_len]
  have hsubset : (perm.take (2 ^ n / 2 + 1)).toFinset ⊆
      (Finset.range arr.length).filter (fun i => arr.get? i = some v) := by
    intro x hx
    rw [List.mem_toFinset] at hx
    obtain ⟨h1, h2⟩ := hmem x hx
    simp only [Finset.mem_filter, Finset.mem_range]
    exact ⟨h2, h1⟩
  have hle := Finset.card_le_card hsubset
  rw [hcard, card_filter_range_get] at hle
  have hcount : arr.count v ≤ 2 ^ n / 2 := by
    rw [harr.count_eq]
    exact base_output_array_count_le n v
  omega

/-- Evaluation of the classifier on a constant oracle: the loop never
breaks and the result is verdict 0 with exactly 2^(n-1) + 1 queries. -/
theorem classify_constant_aux (bb : general_black_box) (ht : bb.type = 0)
    (hn : 1 ≤ bb.input_bitstring_length) (perm : List Nat)
    (hlen : perm.length = 2 ^ bb.input_bitstring_length) :
    black_box_classifier bb perm =
      some (0, 2 ^ (bb.input_bitstring_length - 1) + 1) := by
  have hhalf : 2 ^ bb.input_bitstring_length / 2 =
      2 ^ (bb.input_bitstring_length - 1) := pow_div_two _ hn
  have hhalfpos : 1 ≤ 2 ^ (bb.input_bitstring_length - 1) :=
    Nat.one_le_two_pow
  have hN : 2 ^ bb.input_bitstring_length / 2 + 1 ≤
      2 ^ bb.input_bitstring_length := by
    have := half_add_half _ hn
    omega
  have h0 : perm.get? 0 = some (perm.get ⟨0, by omega⟩) :=
    List.get?_eq_get _
  rw [black_box_classifier]
  simp only [h0, input_output_operation_constant bb ht]
  rw [if_neg (by omega)]
  rw [classifier_loop_no_mismatch bb perm bb.output _ 0 ?_]
  · rw [Nat.zero_add, hhalf]
  · intro j hj1 hj2
    have hjlen : j < perm.length := by omega
    exact ⟨perm.get ⟨j, hjlen⟩, List.get?_eq_get _,
      input_output_operation_constant bb ht _⟩

/-- Evaluation of the classifier on a balanced oracle: the loop breaks at
the first position p of the shuffled index list whose output differs from
the output of the first query; 1 ≤ p ≤ 2^(n-1), the verdict is 1 and the
count is p + 1. -/
theorem classify_balanced_aux (bb : general_black_box) (ht : bb.type = 1)
    (hn : 1 ≤ bb.input_bitstring_length)
    (harr : bb.output_array.Perm (base_output_array bb.input_bitstring_length))
    (perm : List Nat)
    (hperm : perm.Perm (List.range (2 ^ bb.input_bitstring_length))) :
    ∃ p v0 vp, 1 ≤ p ∧ p ≤ 2 ^ (bb.input_bitstring_length - 1) ∧
      black_box_classifier bb perm = some (1, p + 1) ∧
      queried_output bb perm 0 = some v0 ∧
      (∀ j, j < p → queried_output bb perm j = some v0) ∧
      queried_output bb perm p = some vp ∧ vp ≠ v0 := by
  have ht' : bb.type ≠ 0 := by omega
  have harrlen : bb.output_array.length = 2 ^ bb.input_bitstring_length := by
    rw [harr.length_eq, base_output_array_length _ hn]
  have hpermlen : perm.length = 2 ^ bb.input_bitstring_length := by
    rw [hperm.length_eq, List.length_range]
  have hhalf : 2 ^ bb.input_bitstring_length / 2 =
      2 ^ (bb.input_bitstring_length - 1) := pow_div_two _ hn
  have hhalfpos : 1 ≤ 2 ^ bb.input_bitstring_length / 2 := by
    rw [hhalf]; exact Nat.one_le_two_pow
  have hN : 2 ^ bb.input_bitstring_length / 2 + 1 ≤
      2 ^ bb.input_bitstring_length := by
    have := half_add_half _ hn
    omega
  set f : Nat → Nat := fun j => bb.output_array.getD (perm.getD j 0) 0 with hf
  have hidx : ∀ j, j < 2 ^ bb.input_bitstring_length →
      perm.get? j = some (perm.getD j 0) := by
    intro j hj
    rw [List.getD_eq_get _ _ (by omega), List.get?_eq_get (by omega)]
  have hinrange : ∀ j, j < 2 ^ bb.input_bitstring_length →
      perm.getD j 0 < bb.output_array.length := by
    intro j hj
    rw [harrlen]
    have hmem : perm.getD j 0 ∈ perm := by
      rw [List.getD_eq_get _ _ (by omega)]
      exact List.get_mem _ _ _
    exact List.mem_range.mp (hperm.mem_iff.mp hmem)
  have hval : ∀ j, j < 2 ^ bb.input_bitstring_length →
      bb.output_array.get? (perm.getD j 0) = some (f j) := by
    intro j hj
    show bb.output_array.get? (perm.getD j 0) =
      some (bb.output_array.getD (perm.getD j 0) 0)
    rw [List.getD_eq_get _ _ (hinrange j hj), List.get?_eq_get (hinrange j hj)]
  have hqo : ∀ j, j < 2 ^ bb.input_bitstring_length →
      queried_output bb perm j = some (f j) := by
    intro j hj
    rw [queried_output]
    simp only [hidx j hj]
    rw [input_output_operation_balanced bb ht' _ (hinrange j hj), hval j hj]
  have hex : ∃ j, f j ≠ f 0 ∧ j ≤ 2 ^ bb.input_bitstring_length / 2 := by
    by_contra hcon
    push_neg at hcon
    refine balanced_no_constant_prefix _ hn _ harr perm hperm (f 0) ?_
    intro j hj
    refine ⟨perm.getD j 0, hidx j (by omega), ?_⟩
    rw [hval j (by omega)]
    by_cases hj0 : f j = f 0
    · rw [hj0]
    · exact absurd (hcon j hj0) (by omega)
  obtain ⟨j0, hj0ne, hj0le⟩ := hex
  have hexists : ∃ j, f j ≠ f 0 := ⟨j0, hj0ne⟩
  set p := Nat.find hexists with hp
  have hpne : f p ≠ f 0 := Nat.find_spec hexists
  have hple : p ≤ j0 := Nat.find_min' hexists hj0ne
  have hpmin : ∀ k, k < p → f k = f 0 := by
    intro k hk
    by_contra hkne
    exact absurd (Nat.find_min' hexists hkne) (by omega)
  have hp1 : 1 ≤ p := by
    rcases Nat.eq_zero_or_pos p with h | h
    · exact absurd (h ▸ hpne) (by simp)
    · exact h
  have hphalf : p ≤ 2 ^ bb.input_bitstring_length / 2 := by omega
  refine ⟨p, f 0, f p, hp1, by omega, ?_, hqo 0 (by omega), ?_, hqo p (by omega),
    hpne⟩
  · rw [black_box_classifier]
    simp only [hidx 0 (by omega),
      input_output_operation_balanced bb ht' _ (hinrange 0 (by omega)),
      hval 0 (by omega)]
    rw [if_neg (by omega)]
    refine classifier_loop_mismatch bb perm _ 0 (f 0) p (by omega) (by omega)
      ?_ ?_
    · intro j hj1 hj2
      refine ⟨perm.getD j 0, hidx j (by omega), ?_⟩
      rw [input_output_operation_balanced bb ht' _ (hinrange j (by omega)),
        hval j (by omega), hpmin j hj2]
    · refine ⟨perm.getD p 0, hidx p (by omega), f p, ?_, hpne⟩
      rw [input_output_operation_balanced bb ht' _ (hinrange p (by omega)),
        hval p (by omega)]
  · intro j hj
    rw [hqo j (by omega), hpmin j hj]

/-- The pre-shuffle balanced array holds exactly 2^(n-1) zeros. -/
theorem base_output_array_count_zero (n : Nat) (hn : 1 ≤ n) :
    (base_output_array n).count 0 = 2 ^ (n - 1) := by
  simp only [base_output_array, List.count_append, List.count_replicate]
  rw [← pow_div_two n hn]
  simp

/-- The pre-shuffle balanced array holds exactly 2^(n-1) ones. -/
theorem base_output_array_count_one (n : Nat) (hn : 1 ≤ n) :
    (base_output_array n).count 1 = 2 ^ (n - 1) := by
  simp only [base_output_array, List.count_append, List.count_replicate]
  rw [← pow_div_two n hn]
  simp

/-- C1: for every n at least 1 and every oracle satisfying its
construction invariant (a constant oracle with one fixed bit, or a
balanced oracle whose output array is a shuffle of 2^(n-1) zeros and
2^(n-1) ones), black_box_classifier returns a verdict equal to the
oracle's true type flag, for every permutation of the index list: it
never misclassifies. -/
theorem classifier_never_misclassifies (bb : general_black_box)
    (hvalid : valid_general_black_box bb)
    (hn : 1 ≤ bb.input_bitstring_length) (perm : List Nat)
    (hperm : perm.Perm (List.range (2 ^ bb.input_bitstring_length))) :
    ∃ q, black_box_classifier bb perm = some (bb.type, q) := by
  rcases hvalid with ⟨ht, _⟩ | ⟨ht, harr⟩
  · refine ⟨2 ^ (bb.input_bitstring_length - 1) + 1, ?_⟩
    rw [ht]
    exact classify_constant_aux bb ht hn perm
      (by rw [hperm.length_eq, List.length_range])
  · obtain ⟨p, v0, vp, _, _, hcls, _⟩ :=
      classify_balanced_aux bb ht hn harr perm hperm
    refine ⟨p + 1, ?_⟩
    rw [ht]
    exact hcls

/-- Witness for C1 at n = 1 with a balanced oracle and a concrete
shuffle. -/
theorem classifier_never_misclassifies_witness :
    ∃ q, black_box_classifier (general_black_box_mk 1 1 0 [0, 1]) [0, 1] =
      some ((general_black_box_mk 1 1 0 [0, 1]).type, q) :=
  classifier_never_misclassifies (general_black_box_mk 1 1 0 [0, 1])
    (by decide) (by decide) [0, 1] (by decide)

/-- C2: for every n at least 1 and every oracle of either type, the
query count returned by black_box_classifier satisfies
2 ≤ query_count ≤ 2^(n-1) + 1, for every permutation of the index
list. -/
theorem classifier_query_count_bounds (bb : general_black_box)
    (hvalid : valid_general_black_box bb)
    (hn : 1 ≤ bb.input_bitstring_length) (perm : List Nat)
    (hperm : perm.Perm (List.range (2 ^ bb.input_bitstring_length))) :
    ∃ t q, black_box_classifier bb perm = some (t, q) ∧
      2 ≤ q ∧ q ≤ 2 ^ (bb.input_bitstring_length - 1) + 1 := by
  have hpos : 1 ≤ 2 ^ (bb.input_bitstring_length - 1) := Nat.one_le_two_pow
  rcases hvalid with ⟨ht, _⟩ | ⟨ht, harr⟩
  · exact ⟨0, 2 ^ (bb.input_bitstring_length - 1) + 1,
      classify_constant_aux bb ht hn perm
        (by rw [hperm.length_eq, List.length_range]), by omega, Nat.le_refl _⟩
  · obtain ⟨p, v0, vp, hp1, hp2, hcls, _⟩ :=
      classify_balanced_aux bb ht hn harr perm hperm
    exact ⟨1, p + 1, hcls, by omega, by omega⟩

/-- Witness for C2 at n = 1 with a constant oracle. -/
theorem classifier_query_count_bounds_witness :
    ∃ t q, black_box_classifier (general_black_box_mk 0 1 1 []) [1, 0] =
      some (t, q) ∧ 2 ≤ q ∧
      q ≤ 2 ^ ((general_black_box_mk 0 1 1 []).input_bitstring_length - 1) + 1 :=
  classifier_query_count_bounds (general_black_box_mk 0 1 1 []) (by decide)
    (by decide) [1, 0] (by decide)

/-- C3: for every n at least 1 and every constant oracle,
black_box_classifier returns verdict 0 with exactly 2^(n-1) + 1 queries,
for every permutation of the index list. -/
theorem classifier_constant_exact_count (n : Nat) (hn : 1 ≤ n) (b : Nat)
    (hb : b = 0 ∨ b = 1) (perm : List Nat)
    (hperm : perm.Perm (List.range (2 ^ n))) :
    black_box_classifier (general_black_box_mk 0 n b []) perm =
      some (0, 2 ^ (n - 1) + 1) :=
  classify_constant_aux (general_black_box_mk 0 n b []) rfl hn perm
    (by rw [hperm.length_eq, List.length_range]; rfl)

/-- Witness for C3: the spec scenario n = 1, constant oracle, result
(constant, 2). -/
theorem classifier_constant_exact_count_witness :
    black_box_classifier (general_black_box_mk 0 1 1 []) [0, 1] =
      some (0, 2) :=
  classifier_constant_exact_count 1 (by decide) 1 (by decide) [0, 1]
    (by decide)

/-- C4: for every n at least 1, every balanced oracle satisfying the
equal-counts invariant and every permutation of the index list, the
query count equals 1 plus the position p of the first queried output
that differs from the first query's output, and p + 1 is at most
2^(n-1) + 1: the pigeonhole guarantee. -/
theorem classifier_balanced_first_mismatch (n : Nat) (hn : 1 ≤ n)
    (arr : List Nat) (harr : arr.Perm (base_output_array n)) (perm : List Nat)
    (hperm : perm.Perm (List.range (2 ^ n))) :
    ∃ p v0 vp, 1 ≤ p ∧ p ≤ 2 ^ (n - 1) ∧
      black_box_classifier (general_black_box_mk 1 n 0 arr) perm =
        some (1, p + 1) ∧
      queried_output (general_black_box_mk 1 n 0 arr) perm 0 = some v0 ∧
      (∀ j, j < p →
        queried_output (general_black_box_mk 1 n 0 arr) perm j = some v0) ∧
      queried_output (general_black_box_mk 1 n 0 arr) perm p = some vp ∧
      vp ≠ v0 :=
  classify_balanced_aux (general_black_box_mk 1 n 0 arr) rfl hn harr perm hperm

/-- Witness for C4: the spec scenario n = 1 with the balanced mapping
sending 0 to 1 and 1 to 0. -/
theorem classifier_balanced_first_mismatch_witness :
    ∃ p v0 vp, 1 ≤ p ∧ p ≤ 2 ^ (1 - 1) ∧
      black_box_classifier (general_black_box_mk 1 1 0 [1, 0]) [1, 0] =
        some (1, p + 1) ∧
      queried_output (general_black_box_mk 1 1 0 [1, 0]) [1, 0] 0 = some v0 ∧
      (∀ j, j < p →
        queried_output (general_black_box_mk 1 1 0 [1, 0]) [1, 0] j = some v0) ∧
      queried_output (general_black_box_mk 1 1 0 [1, 0]) [1, 0] p = some vp ∧
      vp ≠ v0 :=
  classifier_balanced_first_mismatch 1 (by decide) [1, 0] (by decide) [1, 0]
    (by decide)

/-- C5: for every n at least 1, constructing a balanced oracle from any
shuffle of the base array yields an output array of length 2^n with
exactly 2^(n-1) zero entries and exactly 2^(n-1) one entries. -/
theorem balanced_output_array_counts (n : Nat) (hn : 1 ≤ n) (arr : List Nat)
    (harr : arr.Perm (base_output_array n)) :
    (general_black_box_mk 1 n 0 arr).output_array.length = 2 ^ n ∧
    (general_black_box_mk 1 n 0 arr).output_array.count 0 = 2 ^ (n - 1) ∧
    (general_black_box_mk 1 n 0 arr).output_array.count 1 = 2 ^ (n - 1) := by
  have harr' : (general_black_box_mk 1 n 0 arr).output_array.Perm
      (base_output_array n) := harr
  refine ⟨?_, ?_, ?_⟩
  · rw [harr'.length_eq, base_output_array_length n hn]
  · rw [harr'.count_eq, base_output_array_count_zero n hn]
  · rw [harr'.count_eq, base_output_array_count_one n hn]

/-- Witness for C5 at n = 1 with the shuffle swapping the two entries. -/
theorem balanced_output_array_counts_witness :
    (general_black_box_mk 1 1 0 [1, 0]).output_array.length = 2 ^ 1 ∧
    (general_black_box_mk 1 1 0 [1, 0]).output_array.count 0 = 2 ^ (1 - 1) ∧
    (general_black_box_mk 1 1 0 [1, 0]).output_array.count 1 = 2 ^ (1 - 1) :=
  balanced_output_array_counts 1 (by decide) [1, 0] (by decide)

/-- The running-reference loop and the fixed-first-reference loop agree
on every input: whenever the loop continues, the running reference is
overwritten with a value equal to itself, so it never changes. -/
theorem classifier_loop_first_reference_eq (bb : general_black_box)
    (perm : List Nat) : ∀ remaining counter out1 : Nat,
    classifier_loop bb perm out1 counter remaining =
      classifier_loop_first_reference bb perm out1 counter remaining := by
  intro remaining
  induction remaining with
  | zero => intro counter out1; rfl
  | succ r ih =>
    intro counter out1
    rw [classifier_loop, classifier_loop_first_reference]
    cases h1 : perm.get? (counter + 1) with
    | none => rfl
    | some idx =>
      dsimp only
      cases h2 : input_output_operation bb (idx : Int) with
      | none => rfl
      | some out2 =>
        dsimp only
        by_cases hne : out1 ≠ out2
        · rw [if_pos hne, if_pos hne]
        · rw [if_neg hne, if_neg hne]
          push_neg at hne
          rw [hne]
          exact ih (counter + 1) out2

/-- C9 (implicit refinement): the classifier's running-reference
comparison, which overwrites the reference with the latest output each
iteration, yields exactly the same verdict and query count as comparing
every queried output against the first queried output, for every oracle
and every index list. -/
theorem classifier_running_reference_equiv (black_box : general_black_box)
    (black_box_input_list : List Nat) :
    black_box_classifier black_box black_box_input_list =
      black_box_classifier_first_reference black_box black_box_input_list := by
  rw [black_box_classifier, black_box_classifier_first_reference]
  cases h0 : black_box_input_list.get? 0 with
  | none => rfl
  | some i0 =>
    dsimp only
    cases h1 : input_output_operation black_box (i0 : Int) with
    | none => rfl
    | some out1 =>
      dsimp only
      by_cases hz : 2 ^ black_box.input_bitstring_length / 2 = 0
      · rw [if_pos hz, if_pos hz]
      · rw [if_neg hz, if_neg hz]
        exact classifier_loop_first_reference_eq black_box
          black_box_input_list _ 0 out1

/-- The instrumented loop refines the plain loop: dropping the recorded
index list gives exactly the plain loop's result. -/
theorem classifier_loop_trace_fst (bb : general_black_box) (perm : List Nat) :
    ∀ remaining counter out1 : Nat,
    Option.map Prod.fst (classifier_loop_trace bb perm out1 counter remaining) =
      classifier_loop bb perm out1 counter remaining := by
  intro remaining
  induction remaining with
  | zero => intro counter out1; rfl
  | succ r ih =>
    intro counter out1
    rw [classifier_loop_trace, classifier_loop]
    cases h1 : perm.get? (counter + 1) with
    | none => rfl
    | some idx =>
      dsimp only
      cases h2 : input_output_operation bb (idx : Int) with
      | none => rfl
      | some out2 =>
        dsimp only
        by_cases hne : out1 ≠ out2
        · rw [if_pos hne, if_pos hne]; rfl
        · rw [if_neg hne, if_neg hne]
          rw [← ih (counter + 1) out2]
          cases htr : classifier_loop_trace bb perm out2 (counter + 1) r with
          | none => rfl
          | some p =>
            obtain ⟨res, qs⟩ := p
            rfl

/-- The instrumented classifier refines the plain classifier. -/
theorem black_box_classifier_trace_fst (black_box : general_black_box)
    (black_box_input_list : List Nat) :
    Option.map Prod.fst
        (black_box_classifier_trace black_box black_box_input_list) =
      black_box_classifier black_box black_box_input_list := by
  rw [black_box_classifier_trace, black_box_classifier]
  cases h0 : black_box_input_list.get? 0 with
  | none => rfl
  | some i0 =>
    dsimp only
    cases h1 : input_output_operation black_box (i0 : Int) with
    | none => rfl
    | some out1 =>
      dsimp only
      by_cases hz : 2 ^ black_box.input_bitstring_length / 2 = 0
      · rw [if_pos hz, if_pos hz]; rfl
      · rw [if_neg hz, if_neg hz]
        rw [← classifier_loop_trace_fst black_box black_box_input_list
          (2 ^ black_box.input_bitstring_length / 2) 0 out1]
        cases htr : classifier_loop_trace black_box black_box_input_list out1 0
            (2 ^ black_box.input_bitstring_length / 2) with
        | none => rfl
        | some p =>
          obtain ⟨res, qs⟩ := p
          rfl

/-- The indices the instrumented loop records are exactly the contiguous
slice of the input list from position counter + 1 up to the reported
count, and the count stays within the iteration budget and the list. -/
theorem classifier_loop_trace_take (bb : general_black_box) (perm : List Nat) :
    ∀ remaining counter out1 : Nat, ∀ res : Nat × Nat, ∀ qs : List Nat,
    classifier_loop_trace bb perm out1 counter remaining = some (res, qs) →
    counter + 1 ≤ res.2 ∧ res.2 ≤ counter + remaining + 1 ∧
    (1 ≤ remaining → res.2 ≤ perm.length) ∧
    qs = (perm.drop (counter + 1)).take (res.2 - (counter + 1)) := by
  intro remaining
  induction remaining with
  | zero =>
    intro counter out1 res qs h
    rw [classifier_loop_trace] at h
    injection h with h
    injection h with h1 h2
    subst h1
    subst h2
    exact ⟨Nat.le_refl _, Nat.le_refl _, fun hcon => absurd hcon (by omega),
      by simp⟩
  | succ r ih =>
    intro counter out1 res qs h
    rw [classifier_loop_trace] at h
    cases h1 : perm.get? (counter + 1) with
    | none =>
      rw [h1] at h
      exact absurd h (by simp)
    | some idx =>
      rw [h1] at h
      simp only [] at h
      have h1e : perm[counter + 1]? = some idx := by
        rw [← List.get?_eq_getElem?]
        exact h1
      obtain ⟨hlt, hgete⟩ := List.getElem?_eq_some.mp h1e
      cases h2 : input_output_operation bb (idx : Int) with
      | none => simp [h2] at h
      | some out2 =>
        simp only [h2] at h
        by_cases hne : out1 ≠ out2
        · rw [if_pos hne] at h
          injection h with h
          injection h with hres hqs
          subst hres
          subst hqs
          refine ⟨by omega, by omega, fun _ => by omega, ?_⟩
          rw [List.drop_eq_getElem_cons hlt, hgete]
          have h21 : counter + 2 - (counter + 1) = 1 := by omega
          rw [h21]
          simp
        · rw [if_neg hne] at h
          cases htr : classifier_loop_trace bb perm out2 (counter + 1) r with
          | none => simp [htr] at h
          | some p =>
            obtain ⟨res', qs'⟩ := p
            simp only [htr, Option.some.injEq] at h
            injection h with hres hqs
            subst hres
            subst hqs
            obtain ⟨hb1, hb2, hb3, hb4⟩ := ih (counter + 1) out2 res' qs' htr
            refine ⟨by omega, by omega, fun _ => ?_, ?_⟩
            · rcases Nat.eq_zero_or_pos r with hr | hr
              · subst hr; omega
              · exact hb3 hr
            · rw [List.drop_eq_getElem_cons hlt, hgete]
              have hsub : res'.2 - (counter + 1) = (res'.2 - (counter + 2)) + 1 := by
                omega
              rw [hsub, List.take_succ_cons, ← hb4]

/-- The indices the instrumented classifier records are exactly the
first query-count entries of the input list, and the count is bounded by
half the domain size plus one and by the list length. -/
theorem black_box_classifier_trace_take (bb : general_black_box)
    (perm : List Nat) (res : Nat × Nat) (qs : List Nat)
    (h : black_box_classifier_trace bb perm = some (res, qs)) :
    1 ≤ res.2 ∧ res.2 ≤ 2 ^ bb.input_bitstring_length / 2 + 1 ∧
    res.2 ≤ perm.length ∧ qs = perm.take res.2 := by
  rw [black_box_classifier_trace] at h
  cases h0 : perm.get? 0 with
  | none =>
    rw [h0] at h
    exact absurd h (by simp)
  | some i0 =>
    rw [h0] at h
    simp only [] at h
    have h0e : perm[0]? = some i0 := by
      rw [← List.get?_eq_getElem?]
      exact h0
    obtain ⟨hlt0, hget0e⟩ := List.getElem?_eq_some.mp h0e
    cases h1 : input_output_operation bb (i0 : Int) with
    | none => simp [h1] at h
    | some out1 =>
      simp only [h1] at h
      by_cases hz : 2 ^ bb.input_bitstring_length / 2 = 0
      · rw [if_pos hz] at h
        exact absurd h (by simp)
      · rw [if_neg hz] at h
        cases htr : classifier_loop_trace bb perm out1 0
            (2 ^ bb.input_bitstring_length / 2) with
        | none => simp [htr] at h
        | some p =>
          obtain ⟨res', qs'⟩ := p
          simp only [htr, Option.some.injEq] at h
          injection h with hres hqs
          subst hres
          subst hqs
          obtain ⟨hb1, hb2, hb3, hb4⟩ :=
            classifier_loop_trace_take bb perm
              (2 ^ bb.input_bitstring_length / 2) 0 out1 res' qs' htr
          have hb3' : res'.2 ≤ perm.length := hb3 (by omega)
          refine ⟨by omega, by omega, hb3', ?_⟩
          rw [hb4]
          have hperm0 : perm.take res'.2 =
              perm[0] :: (perm.drop 1).take (res'.2 - 1) := by
            conv_lhs =>
              rw [← List.drop_zero perm, List.drop_eq_getElem_cons hlt0]
            have hs : res'.2 = (res'.2 - 1) + 1 := by omega
            rw [hs, List.take_succ_cons]
            congr 2
          rw [hperm0, hget0e]

/-- The classifier returns a result (does not raise) on every valid
oracle with n at least 1 and every permutation of the index list. -/
theorem classifier_succeeds_aux (bb : general_black_box)
    (hvalid : valid_general_black_box bb)
    (hn : 1 ≤ bb.input_bitstring_length) (perm : List Nat)
    (hperm : perm.Perm (List.range (2 ^ bb.input_bitstring_length))) :
    ∃ t q, black_box_classifier bb perm = some (t, q) := by
  rcases hvalid with ⟨ht, _⟩ | ⟨ht, harr⟩
  · exact ⟨0, 2 ^ (bb.input_bitstring_length - 1) + 1,
      classify_constant_aux bb ht hn perm
        (by rw [hperm.length_eq, List.length_range])⟩
  · obtain ⟨p, v0, vp, _, _, hcls, _⟩ :=
      classify_balanced_aux bb ht hn harr perm hperm
    exact ⟨1, p + 1, hcls⟩

/-- The trial loop of the harness: with two valid pre-built oracles of
the same bit length and valid per-trial permutations, every trial
succeeds, the two record lists have one entry per trial, and the j-th
entries are the verdict and query count of classifying the oracle the
j-th coin chose. -/
theorem test_black_box_classifier_loop_spec (bb1 bb2 : general_black_box)
    (hv1 : valid_general_black_box bb1) (hv2 : valid_general_black_box bb2)
    (hn1 : 1 ≤ bb1.input_bitstring_length)
    (hnn : bb2.input_bitstring_length = bb1.input_bitstring_length)
    (choices : Nat → Bool) (perms : Nat → List Nat) :
    ∀ remaining i : Nat,
    (∀ k, i ≤ k → k < i + remaining →
      (perms k).Perm (List.range (2 ^ bb1.input_bitstring_length))) →
    ∃ qs ts, test_black_box_classifier_loop bb1 bb2 choices perms i remaining =
        some (qs, ts) ∧
      qs.length = remaining ∧ ts.length = remaining ∧
      ∀ j, j < remaining → ∃ t q,
        black_box_classifier (if choices (i + j) then bb1 else bb2)
          (perms (i + j)) = some (t, q) ∧
        ts.get? j = some t ∧ qs.get? j = some q := by
  intro remaining
  induction remaining with
  | zero =>
    intro i _
    exact ⟨[], [], rfl, rfl, rfl, fun j hj => absurd hj (by omega)⟩
  | succ r ih =>
    intro i H
    have hcls : ∃ t q, black_box_classifier (if choices i then bb1 else bb2)
        (perms i) = some (t, q) := by
      cases hc : choices i with
      | true =>
        rw [if_pos rfl]
        exact classifier_succeeds_aux bb1 hv1 hn1 (perms i)
          (H i (Nat.le_refl _) (by omega))
      | false =>
        rw [if_neg (by simp)]
        refine classifier_succeeds_aux bb2 hv2 (by omega) (perms i) ?_
        rw [hnn]
        exact H i (Nat.le_refl _) (by omega)
    obtain ⟨t, q, hcls⟩ := hcls
    obtain ⟨qs, ts, hloop, hlq, hlt, hpt⟩ :=
      ih (i + 1) (fun k hk1 hk2 => H k (by omega) (by omega))
    refine ⟨q :: qs, t :: ts, ?_, by simp [hlq], by simp [hlt], ?_⟩
    · rw [test_black_box_classifier_loop]
      simp only [hcls, hloop]
    · intro j hj
      cases j with
      | zero =>
        refine ⟨t, q, ?_, rfl, rfl⟩
        have hi0 : i + 0 = i := by omega
        rw [hi0]
        exact hcls
      | succ k =>
        obtain ⟨t', q', hcls', hts', hqs'⟩ := hpt k (by omega)
        refine ⟨t', q', ?_, hts', hqs'⟩
        have hik : i + (k + 1) = i + 1 + k := by omega
        rw [hik]
        exact hcls'

/-- The harness succeeds on valid randomness and its record lists are
the per-trial classifications of the two pre-built oracles. -/
theorem test_black_box_classifier_spec (n trials : Nat) (hn : 1 ≤ n)
    (arr : List Nat) (harr : arr.Perm (base_output_array n)) (bit : Nat)
    (hbit : bit = 0 ∨ bit = 1) (choices : Nat → Bool) (perms : Nat → List Nat)
    (hperms : ∀ k, k < trials → (perms k).Perm (List.range (2 ^ n))) :
    ∃ qs ts, test_black_box_classifier n trials arr bit choices perms =
        some (qs, ts) ∧ qs.length = trials ∧ ts.length = trials ∧
      ∀ j, j < trials → ∃ t q,
        black_box_classifier
          (if choices j then general_black_box_mk 1 n 0 arr
           else general_black_box_mk 0 n bit []) (perms j) = some (t, q) ∧
        ts.get? j = some t ∧ qs.get? j = some q := by
  obtain ⟨qs, ts, hloop, hlq, hlt, hpt⟩ :=
    test_black_box_classifier_loop_spec (general_black_box_mk 1 n 0 arr)
      (general_black_box_mk 0 n bit []) (Or.inr ⟨rfl, harr⟩)
      (Or.inl ⟨rfl, hbit⟩) hn rfl choices perms trials 0
      (fun k hk1 hk2 => hperms k (by omega))
  refine ⟨qs, ts, hloop, hlq, hlt, ?_⟩
  intro j hj
  obtain ⟨t, q, hcls, hts, hqs⟩ := hpt j hj
  rw [Nat.zero_add] at hcls
  exact ⟨t, q, hcls, hts, hqs⟩

/-- C8: for every n at least 1 and every trial count, the harness builds
exactly one balanced oracle (from the single shuffle balanced_shuffled)
and exactly one constant oracle (from the single bit constant_bit)
before the trial loop, and returns two record lists of length exactly
the trial count in which the j-th verdict and query count come from
classifying whichever of those two pre-built instances the j-th coin
chose.  The equal-probability choice of the source's random.choice is
modelled by quantifying over every coin sequence. -/
theorem harness_prebuilt_oracles_and_records (n trials : Nat) (hn : 1 ≤ n)
    (arr : List Nat) (harr : arr.Perm (base_output_array n)) (bit : Nat)
    (hbit : bit = 0 ∨ bit = 1) (choices : Nat → Bool) (perms : Nat → List Nat)
    (hperms : ∀ k, k < trials → (perms k).Perm (List.range (2 ^ n))) :
    ∃ qs ts, test_black_box_classifier n trials arr bit choices perms =
        some (qs, ts) ∧ qs.length = trials ∧ ts.length = trials ∧
      ∀ j, j < trials → ∃ t q,
        black_box_classifier
          (if choices j then general_black_box_mk 1 n 0 arr
           else general_black_box_mk 0 n bit []) (perms j) = some (t, q) ∧
        ts.get? j = some t ∧ qs.get? j = some q :=
  test_black_box_classifier_spec n trials hn arr harr bit hbit choices perms
    hperms

/-- Witness for C8 at n = 1 with two trials and the coin always picking
the balanced oracle. -/
theorem harness_prebuilt_oracles_and_records_witness :
    ∃ qs ts, test_black_box_classifier 1 2 [0, 1] 1
        (fun _ => true) (fun _ => [1, 0]) = some (qs, ts) ∧
      qs.length = 2 ∧ ts.length = 2 ∧
      ∀ j, j < 2 → ∃ t q,
        black_box_classifier
          (if (fun _ => true) j then general_black_box_mk 1 1 0 [0, 1]
           else general_black_box_mk 0 1 1 []) ((fun _ => [1, 0]) j) =
          some (t, q) ∧
        ts.get? j = some t ∧ qs.get? j = some q := by
  have hp : ([1, 0] : List Nat).Perm (List.range (2 ^ 1)) := by decide
  exact harness_prebuilt_oracles_and_records 1 2 (by decide) [0, 1]
    (by decide) 1 (by decide) (fun _ => true) (fun _ => [1, 0])
    (fun k hk => hp)

/-- The scaling loop: with valid per-length randomness every harness run
succeeds and the loop returns one exact arithmetic mean of the recorded
query counts per bit length. -/
theorem average_output_number_scaling_loop_spec (trials : Nat)
    (arrs : Nat → List Nat) (bits : Nat → Nat) (choices : Nat → Nat → Bool)
    (perms : Nat → Nat → List Nat) :
    ∀ remaining i : Nat,
    (∀ m, i + 1 ≤ m → m ≤ i + remaining →
      (arrs m).Perm (base_output_array m)) →
    (∀ m, bits m = 0 ∨ bits m = 1) →
    (∀ m, i + 1 ≤ m → m ≤ i + remaining → ∀ k,
      (perms m k).Perm (List.range (2 ^ m))) →
    ∃ means, average_output_number_scaling_loop trials arrs bits choices perms
        i remaining = some means ∧
      means.length = remaining ∧
      ∀ k, k < remaining → ∃ qs ts,
        test_black_box_classifier (i + k + 1) trials (arrs (i + k + 1))
          (bits (i + k + 1)) (choices (i + k + 1)) (perms (i + k + 1)) =
          some (qs, ts) ∧
        means.get? k = some ((qs.sum : Rat) / (qs.length : Rat)) := by
  intro remaining
  induction remaining with
  | zero =>
    intro i _ _ _
    exact ⟨[], rfl, rfl, fun k hk => absurd hk (by omega)⟩
  | succ r ih =>
    intro i harrs hbits hperms
    obtain ⟨qs, ts, hhar, hlq, hlt, hpt⟩ :=
      test_black_box_classifier_spec (i + 1) trials (by omega)
        (arrs (i + 1)) (harrs (i + 1) (Nat.le_refl _) (by omega))
        (bits (i + 1)) (hbits (i + 1)) (choices (i + 1)) (perms (i + 1))
        (fun k _ => hperms (i + 1) (Nat.le_refl _) (by omega) k)
    obtain ⟨means, hloop, hlm, hptm⟩ :=
      ih (i + 1) (fun m hm1 hm2 => harrs m (by omega) (by omega)) hbits
        (fun m hm1 hm2 => hperms m (by omega) (by omega))
    refine ⟨((qs.sum : Rat) / (qs.length : Rat)) :: means, ?_,
      by simp [hlm], ?_⟩
    · rw [average_output_number_scaling_loop]
      simp only [hhar, hloop]
    · intro k hk
      cases k with
      | zero =>
        refine ⟨qs, ts, ?_, rfl⟩
        have h0 : i + 0 + 1 = i + 1 := by omega
        rw [h0]
        exact hhar
      | succ m =>
        obtain ⟨qs', ts', hhar', hm'⟩ := hptm m (by omega)
        refine ⟨qs', ts', ?_, hm'⟩
        have hadd : i + (m + 1) + 1 = i + 1 + m + 1 := by omega
        rw [hadd]
        exact hhar'

/-- C7: for every max bit length at least 1 and every positive trial
count, the scaling driver produces the curve handed to the plotting
collaborator: an ordered sequence of exactly max points whose first
components are 1, 2, ..., max in order, and whose second component at
position k is the exact arithmetic mean of the query counts the harness
recorded for bit length k + 1. -/
theorem scaling_curve_points (max_n trials : Nat) (hmax : 1 ≤ max_n)
    (htrials : 1 ≤ trials) (arrs : Nat → List Nat) (bits : Nat → Nat)
    (choices : Nat → Nat → Bool) (perms : Nat → Nat → List Nat)
    (harrs : ∀ m, 1 ≤ m → m ≤ max_n → (arrs m).Perm (base_output_array m))
    (hbits : ∀ m, bits m = 0 ∨ bits m = 1)
    (hperms : ∀ m, 1 ≤ m → m ≤ max_n → ∀ k,
      (perms m k).Perm (List.range (2 ^ m))) :
    ∃ pts, average_output_number_scaling max_n trials arrs bits choices perms =
        some pts ∧
      pts.length = max_n ∧
      pts.map Prod.fst = (List.range max_n).map (fun i => i + 1) ∧
      ∀ k, k < max_n → ∃ qs ts,
        test_black_box_classifier (k + 1) trials (arrs (k + 1)) (bits (k + 1))
          (choices (k + 1)) (perms (k + 1)) = some (qs, ts) ∧
        pts.get? k = some (k + 1, (qs.sum : Rat) / (qs.length : Rat)) := by
  obtain ⟨means, hloop, hlm, hptm⟩ :=
    average_output_number_scaling_loop_spec trials arrs bits choices perms
      max_n 0 (fun m hm1 hm2 => harrs m (by omega) (by omega)) hbits
      (fun m hm1 hm2 => hperms m (by omega) (by omega))
  have hxs : ((List.range max_n).map (fun i => i + 1)).length = max_n := by
    simp
  refine ⟨((List.range max_n).map (fun i => i + 1)).zip means, ?_, ?_, ?_, ?_⟩
  · rw [average_output_number_scaling]
    simp only [hloop]
  · rw [List.length_zip, hxs, hlm]
    omega
  · exact List.map_fst_zip _ _ (by rw [hxs, hlm])
  · intro k hk
    obtain ⟨qs, ts, hhar, hm⟩ := hptm k hk
    rw [Nat.zero_add] at hhar
    refine ⟨qs, ts, hhar, ?_⟩
    rw [List.get?_eq_getElem?]
    rw [List.getElem?_zip_eq_some]
    constructor
    · rw [← List.get?_eq_getElem?, List.get?_map, List.get?_range hk]
      rfl
    · rw [← List.get?_eq_getElem?]
      exact hm

/-- Witness for C7: one bit length, one trial, concrete randomness. -/
theorem scaling_curve_points_witness :
    ∃ pts, average_output_number_scaling 1 1 (fun _ => [0, 1]) (fun _ => 0)
        (fun _ _ => true) (fun _ _ => [0, 1]) = some pts ∧
      pts.length = 1 ∧
      pts.map Prod.fst = (List.range 1).map (fun i => i + 1) ∧
      ∀ k, k < 1 → ∃ qs ts,
        test_black_box_classifier (k + 1) 1 [0, 1] 0 (fun _ => true)
          (fun _ => [0, 1]) = some (qs, ts) ∧
        pts.get? k = some (k + 1, (qs.sum : Rat) / (qs.length : Rat)) :=
  by
  have harr1 : ([0, 1] : List Nat).Perm (base_output_array 1) := by decide
  have hp1 : ([0, 1] : List Nat).Perm (List.range (2 ^ 1)) := by decide
  exact scaling_curve_points 1 1 (by decide) (by decide) (fun _ => [0, 1])
    (fun _ => 0) (fun _ _ => true) (fun _ _ => [0, 1])
    (fun m hm1 hm2 => by
      have hm : m = 1 := by omega
      subst hm
      exact harr1)
    (fun m => Or.inl rfl)
    (fun m hm1 hm2 k => by
      have hm : m = 1 := by omega
      subst hm
      exact hp1)

/-- Counterexample to C6 as stated: a validly constructed constant
oracle with n = 1 queried at index 2, which is outside the range 0 to
2^1, returns the bit some 0 instead of an error: input_output_operation
performs no validation of the index. -/
theorem input_output_operation_no_rejection_counterexample :
    input_output_operation (general_black_box_mk 0 1 0 []) 2 = some 0 ∧
    ¬((0 : Int) ≤ 2 ∧ (2 : Int) < 2 ^ 1) ∧
    valid_general_black_box (general_black_box_mk 0 1 0 []) := by decide

/-- C6 amended: input_output_operation performs no explicit range
validation.  A constant oracle returns its fixed bit for every integer
index; a balanced oracle returns a bit for every index in the interval
from -2^n to 2^n - 1 (numpy negative indexing counts from the end) and
raises an index error (none) exactly for indices outside that
interval. -/
theorem input_output_operation_range_behavior (n : Nat) (hn : 1 ≤ n) (b : Nat)
    (arr : List Nat) (harr : arr.Perm (base_output_array n)) (i : Int) :
    input_output_operation (general_black_box_mk 0 n b []) i = some b ∧
    (0 ≤ i ∧ i < (2 ^ n : Int) → ∃ v,
      input_output_operation (general_black_box_mk 1 n 0 arr) i = some v) ∧
    (-(2 ^ n : Int) ≤ i ∧ i < 0 → ∃ v,
      input_output_operation (general_black_box_mk 1 n 0 arr) i = some v) ∧
    (((2 ^ n : Int) ≤ i ∨ i < -(2 ^ n : Int)) →
      input_output_operation (general_black_box_mk 1 n 0 arr) i = none) := by
  have harrlen : (general_black_box_mk 1 n 0 arr).output_array.length = 2 ^ n := by
    have : (general_black_box_mk 1 n 0 arr).output_array = arr := rfl
    rw [this, harr.length_eq, base_output_array_length n hn]
  have hlen : ((general_black_box_mk 1 n 0 arr).output_array.length : Int) =
      (2 ^ n : Int) := by
    rw [harrlen]
    push_cast
    ring
  have htype : (general_black_box_mk 1 n 0 arr).type = 1 := rfl
  refine ⟨input_output_operation_constant _ rfl i, ?_, ?_, ?_⟩
  · rintro ⟨hi0, hiN⟩
    simp only [input_output_operation, htype]
    rw [if_neg (by simp), if_pos ⟨hi0, by rw [hlen]; exact hiN⟩]
    have hbound : i.toNat < (general_black_box_mk 1 n 0 arr).output_array.length := by
      rw [harrlen]
      omega
    exact ⟨_, List.get?_eq_get hbound⟩
  · rintro ⟨hi0, hiN⟩
    simp only [input_output_operation, htype]
    rw [if_neg (by simp),
      if_neg (by rw [hlen]; intro hc; omega),
      if_pos ⟨by rw [hlen]; exact hi0, hiN⟩]
    have hbound : (i + (general_black_box_mk 1 n 0 arr).output_array.length).toNat <
        (general_black_box_mk 1 n 0 arr).output_array.length := by
      omega
    exact ⟨_, List.get?_eq_get hbound⟩
  · intro hout
    simp only [input_output_operation, htype]
    rw [if_neg (by simp),
      if_neg (by rw [hlen]; intro hc; omega),
      if_neg (by rw [hlen]; intro hc; omega)]

/-- Witness for the amended C6 at n = 1 with the balanced oracle built
from the identity shuffle and the out-of-range index 5, on which the
balanced oracle errors while the constant oracle still answers. -/
theorem input_output_operation_range_behavior_witness :
    input_output_operation (general_black_box_mk 0 1 1 []) 5 = some 1 ∧
    ((0 : Int) ≤ 5 ∧ (5 : Int) < (2 ^ 1 : Int) → ∃ v,
      input_output_operation (general_black_box_mk 1 1 0 [0, 1]) 5 = some v) ∧
    (-(2 ^ 1 : Int) ≤ 5 ∧ (5 : Int) < 0 → ∃ v,
      input_output_operation (general_black_box_mk 1 1 0 [0, 1]) 5 = some v) ∧
    (((2 ^ 1 : Int) ≤ 5 ∨ (5 : Int) < -(2 ^ 1 : Int)) →
      input_output_operation (general_black_box_mk 1 1 0 [0, 1]) 5 = none) :=
  input_output_operation_range_behavior 1 (by decide) 1 [0, 1] (by decide) 5

/-- C10 (implicit safety): every successful classification run queries
the oracle at the first query-count positions of the index list only:
those indices are pairwise distinct and all lie below 2^n, so each query
counted is a distinct oracle evaluation and every balanced-array lookup
is in bounds. -/
theorem classifier_queried_indices_safe (bb : general_black_box)
    (perm : List Nat)
    (hperm : perm.Perm (List.range (2 ^ bb.input_bitstring_length)))
    (t q : Nat) (h : black_box_classifier bb perm = some (t, q)) :
    black_box_classifier_trace bb perm = some ((t, q), perm.take q) ∧
    (perm.take q).length = q ∧ (perm.take q).Nodup ∧
    ∀ i ∈ perm.take q, i < 2 ^ bb.input_bitstring_length := by
  have hfst := black_box_classifier_trace_fst bb perm
  rw [h] at hfst
  cases htr : black_box_classifier_trace bb perm with
  | none =>
    rw [htr] at hfst
    exact absurd hfst (by simp)
  | some p =>
    obtain ⟨res, qs⟩ := p
    rw [htr] at hfst
    obtain rfl : res = (t, q) := by simpa using hfst
    obtain ⟨hb1, hb2, hb3, hb4⟩ :=
      black_box_classifier_trace_take bb perm (t, q) qs htr
    simp only at hb1 hb2 hb3 hb4
    subst hb4
    refine ⟨rfl, ?_, ?_, ?_⟩
    · rw [List.length_take]
      omega
    · exact (hperm.nodup_iff.mpr (List.nodup_range _)).sublist
        (List.take_sublist _ _)
    · intro i hi
      exact List.mem_range.mp (hperm.mem_iff.mp (List.take_subset _ _ hi))

/-- Witness for C10: a constant oracle at n = 1 with the identity index
list; the run reports 2 queries and the queried indices are 0 and 1. -/
theorem classifier_queried_indices_safe_witness :
    black_box_classifier_trace (general_black_box_mk 0 1 0 [])
        ([0, 1] : List Nat) =
      some ((0, 2), ([0, 1] : List Nat).take 2) ∧
    (([0, 1] : List Nat).take 2).length = 2 ∧
    (([0, 1] : List Nat).take 2).Nodup ∧
    ∀ i ∈ ([0, 1] : List Nat).take 2,
      i < 2 ^ (general_black_box_mk 0 1 0 []).input_bitstring_length :=
  classifier_queried_indices_safe (general_black_box_mk 0 1 0 [])
    ([0, 1] : List Nat) (by decide) 0 2 (by decide)
